import Mathlib

/-!
Verification of the timestone deduplication and recombination pipeline
(`src/file_handler.py`) against its specification.

A stream table, as `drop_from_df` sees one, is a pandas DataFrame read with
`dtype=str`: every cell is either a string or missing (NaN).  We embed a row
as a `List (Option α)` of cells — cell 0 is the `time` column, cell 1 the
primary measurement (`x` for accelerometer files, `measure_value` otherwise;
in both layouts it is the second column), further cells are `y`/`z` for
accelerometer data.  `α` is the cell-content type: the code only ever
compares cells for equality, so the embedding is polymorphic in `α` with
decidable equality (`String` for the parts that inspect cell text, `Nat` for
concrete tables).  pandas `duplicated`/`drop_duplicates` hash NaN equal to
NaN, which `Option` equality (`none = none`) mirrors.
-/

namespace Timestone

/-- One row of a stream table: the list of its cells, `none` for NaN. -/
abbrev Row (α : Type) := List (Option α)

variable {α : Type} [DecidableEq α]

/-- Cell 0, the `time` column (`df.duplicated(subset=['time'])` compares it). -/
def timeOf (r : Row α) : Option α := r.getD 0 none

/-- Cell 1, the primary measurement: `df.x` for accelerometer data,
`df.measure_value` otherwise — the second column in either layout. -/
def primaryOf (r : Row α) : Option α := r.getD 1 none

/-- How many rows of `df` carry time `t`. -/
def countTimeEq (df : List (Row α)) (t : Option α) : Nat :=
  df.countP (fun r => decide (timeOf r = t))

/-- How many rows of `df` equal `v` in every cell. -/
def countRowEq (df : List (Row α)) (v : Row α) : Nat :=
  df.countP (fun r => decide (r = v))

/-- `mask_all`: `df.duplicated(subset=['time'], keep=False)` marks a row iff
its time occurs in at least two rows (all occurrences are marked). -/
def dupTime (df : List (Row α)) (r : Row α) : Bool :=
  decide (2 ≤ countTimeEq df (timeOf r))

/-- `mask_perf`: `df.duplicated(keep=False)` marks a row iff the entire row
occurs at least twice. -/
def dupFull (df : List (Row α)) (r : Row α) : Bool :=
  decide (2 ≤ countRowEq df r)

/-- `mask_unclear = mask_all & ~mask_perf`. -/
def unclearRow (df : List (Row α)) (r : Row α) : Bool :=
  dupTime df r && !dupFull df r

/-- `drop_log['total_rows'] = df.shape[0]`. -/
def totalRows (df : List (Row α)) : Nat := df.length

/-- `drop_log['total_dupes'] = df[mask_all].shape[0]`. -/
def totalDupes (df : List (Row α)) : Nat := df.countP (dupTime df)

/-- `drop_log['perfect'] = df[mask_perf].shape[0]`. -/
def perfectCount (df : List (Row α)) : Nat := df.countP (dupFull df)

/-- `drop_log['unclear'] = df[mask_unclear].shape[0]`. -/
def unclearCount (df : List (Row α)) : Nat := df.countP (unclearRow df)

/-- `drop_log['nan'] = df.x.isna().sum() if is_acc else df.measure_value.isna().sum()`:
both branches count missing values of the second column. -/
def nanCount (df : List (Row α)) : Nat :=
  df.countP (fun r => decide (primaryOf r = none))

/-- A row with no missing cell (`df.dropna()` keeps exactly these rows). -/
def allSome (r : Row α) : Bool := r.all (fun c => c.isSome)

/-- Rows paired with their original positional index (the DataFrame index). -/
def indexRows : Nat → List (Row α) → List (Nat × Row α)
  | _, [] => []
  | n, r :: rs => (n, r) :: indexRows (n + 1) rs

/-- `df.drop_duplicates(keep='last')` on indexed rows: a row is kept iff no
later row has the same cells, so each surviving value sits at the position of
its last occurrence. -/
def dropDupKeepLast : List (Nat × Row α) → List (Nat × Row α)
  | [] => []
  | p :: rest =>
    if rest.any (fun q => decide (q.2 = p.2)) then dropDupKeepLast rest
    else p :: dropDupKeepLast rest

/-- The non-scan branch of `drop_from_df`, carrying original indices:
`df = df[~mask_unclear]; df = df.dropna(); df = df.drop_duplicates(keep='last')`.
The masks are computed on the original table before any drop. -/
def cleanE (df : List (Row α)) : List (Nat × Row α) :=
  dropDupKeepLast
    (((indexRows 0 df).filter (fun p => !unclearRow df p.2)).filter
      (fun p => allSome p.2))

/-- The cleaned table `drop_from_df` returns when `scan_only` is false. -/
def cleanedRows (df : List (Row α)) : List (Row α) := (cleanE df).map (fun p => p.2)

/-- Value-level `drop_duplicates(keep='last')`. -/
def dropDupKeepLastV : List (Row α) → List (Row α)
  | [] => []
  | r :: rest =>
    if rest.any (fun q => decide (q = r)) then dropDupKeepLastV rest
    else r :: dropDupKeepLastV rest

/-- The surviving original row indices and values, with their last-occurrence
position: the last entry of `l` whose row value is `v`. -/
def lastOcc (v : Row α) (l : List (Nat × Row α)) : Option (Nat × Row α) :=
  (l.filter (fun p => decide (p.2 = v))).getLast?

/-! ### Path handling (`extract_ids_from_path`, the month regex, filename tests)

`os.sep` is `/`; Python `str.split` on a single-character separator is
`splitOnChar`.  Paths stay `String`s; their segments are `List Char` so that
every function here evaluates by kernel reduction. -/

/-- Python `s.split(sep)` for a one-character separator: `"" ↦ [""]`,
separators at the ends produce empty segments. -/
def splitOnChar (sep : Char) : List Char → List (List Char)
  | [] => [[]]
  | c :: cs =>
    let r := splitOnChar sep cs
    if c = sep then [] :: r
    else
      match r with
      | [] => [[c]]
      | s :: ss => (c :: s) :: ss

/-- `file_path.split(os.sep)`. -/
def pathSegments (p : String) : List (List Char) := splitOnChar '/' p.data

/-- Python `str.lower()` (the paths in question are ASCII). -/
def lowerChars (s : List Char) : List Char := s.map Char.toLower

/--
`extract_ids_from_path`:
`path_list = file_path.split(os.sep); device_id = path_list[-2];`
`ppt_id = path_list[-4].lower() + path_list[-3]`.
Negative indexing raises `IndexError` when fewer than four segments exist
(`[-2]` needs two, `[-4]` four), modelled as `none`.
-/
def extract_ids_from_path (p : String) : Option (List Char × List Char) :=
  if 4 ≤ (pathSegments p).length then
    some ((pathSegments p).getD ((pathSegments p).length - 2) [],
      lowerChars ((pathSegments p).getD ((pathSegments p).length - 4) []) ++
        (pathSegments p).getD ((pathSegments p).length - 3) [])
  else none

/-- Consume exactly `n` decimal digits, returning the remaining characters. -/
def digitsFrom : Nat → List Char → Option (List Char)
  | 0, cs => some cs
  | _ + 1, [] => none
  | n + 1, c :: cs => if c.isDigit then digitsFrom n cs else none

/-- Whether the regex `\d{8}_\d{8}` matches at the start of `cs`. -/
def dateTokenAt (cs : List Char) : Bool :=
  match digitsFrom 8 cs with
  | none => false
  | some rest =>
    match rest with
    | '_' :: rest2 => (digitsFrom 8 rest2).isSome
    | _ => false

/-- Whether `\d{8}_\d{8}` matches anywhere in the character list. -/
def hasDateTokenChars : List Char → Bool
  | [] => false
  | c :: cs => dateTokenAt (c :: cs) || hasDateTokenChars cs

/-- Whether `re.findall(r'\d{8}_\d{8}', path)` is non-empty; when it is empty,
`[0]` raises `IndexError`. -/
def hasDateToken (p : String) : Bool := hasDateTokenChars p.data

/-- The metadata-extraction step at the top of `drop_from_df`: extract the
ids, then the month token; either failure raises before any result exists. -/
def extractMeta (p : String) : Option (List Char × List Char) :=
  (extract_ids_from_path p).bind (fun ids => if hasDateToken p then some ids else none)

/-- `path.split(os.sep)[-1]`: the filename. -/
def lastSegment (p : String) : List Char := (pathSegments p).getLastD []

/-- Whether `needle` is an initial run of `hay`. -/
def leadsChars : List Char → List Char → Bool
  | [], _ => true
  | _ :: _, [] => false
  | a :: as, b :: bs => decide (a = b) && leadsChars as bs

/-- Python `needle in hay` substring test. -/
def hasSubChars (needle : List Char) : List Char → Bool
  | [] => needle.isEmpty
  | c :: cs => leadsChars needle (c :: cs) || hasSubChars needle cs

/-! ### EDA normalization (`deduplicate_and_clean`) -/

/-- `df['measure_value'].replace("-0.0", "0.0")` on one cell: only an exact
`"-0.0"` is rewritten; `NaN` and every other string pass through. -/
def normalizeCell (v : Option String) : Option String :=
  if v = some "-0.0" then some "0.0" else v

/-- The replacement applied to the `measure_value` column (cell 1). -/
def edaNormalizeRow : Row String → Row String
  | t :: v :: rest => t :: normalizeCell v :: rest
  | r => r

/-- `deduplicate_and_clean`'s pre-classification step: when `"eda" in
path.split(os.sep)[-1]`, rewrite `-0.0` measurements; otherwise leave the
table untouched. -/
def loadNormalize (path : String) (df : List (Row String)) : List (Row String) :=
  if hasSubChars ("eda".data) (lastSegment path) then df.map edaNormalizeRow else df

/-! ### The duplicate ledger (`duplicate_log.csv` upsert in `drop_from_df`) -/

/-- The composite key `(ppt_id, dev_id, month, stream)`. -/
structure LedgerKey where
  ppt_id : String
  dev_id : String
  month : String
  stream : String
deriving DecidableEq

/-- The counts a `drop_log` row carries. -/
structure DropCounts where
  perfect : Nat
  nanRows : Nat
  unclear : Nat
  total_rows : Nat
  total_dupes : Nat
deriving DecidableEq

/-- One row of the duplicate log. -/
structure LedgerEntry where
  key : LedgerKey
  counts : DropCounts
deriving DecidableEq

/--
The write-back at the end of `drop_from_df`: rows matching the key
(`log_index`) are overwritten field-by-field with `drop_log`'s values —
including the key fields, so a matched row becomes `e` — and when no row
matches, `drop_log` is appended as a new row.
-/
def upsert (L : List LedgerEntry) (e : LedgerEntry) : List LedgerEntry :=
  if L.any (fun x => decide (x.key = e.key)) then
    L.map (fun x => if x.key = e.key then e else x)
  else L ++ [e]

/-- The ledger rows carrying key `k`. -/
def entriesFor (L : List LedgerEntry) (k : LedgerKey) : List LedgerEntry :=
  L.filter (fun x => decide (x.key = k))

/-- How many ledger rows carry key `k`. -/
def countKey (L : List LedgerEntry) (k : LedgerKey) : Nat :=
  (entriesFor L k).length

/-! ### Combining (`combine_files_and_add_columns`) -/

/-- A staged, cleaned per-device file: its path and its rows. -/
structure StagedFile where
  path : String
  rows : List (Row String)
deriving DecidableEq

/-- `path.split(os.sep)[-1].split(".")[0]`: the stream name in the filename. -/
def parsedStreamName (p : String) : List Char :=
  (splitOnChar '.' (lastSegment p)).headD []

/-- The two `assign` calls: `ppt_id` is appended first, then `dev_id`, so the
new cells land at the end of each row in that order. -/
def addIdCols (ppt dev : List Char) (rows : List (Row String)) : List (Row String) :=
  rows.map (fun r => r ++ [some (String.mk ppt), some (String.mk dev)])

/-- One iteration of the per-file loop: extract the ids (raising on a
malformed path), `assert stream == stream_in_name` (an `AssertionError`
stops the run), then read the chunk and append the id columns. -/
def processFile (stream : String) (f : StagedFile) : Except String (List (Row String)) :=
  match extract_ids_from_path f.path with
  | none => Except.error "IndexError: malformed path"
  | some (dev, ppt) =>
    if parsedStreamName f.path = stream.data then Except.ok (addIdCols ppt dev f.rows)
    else Except.error "AssertionError: stream != stream_in_name"

/-- `[path for path in file_paths if stream in path.split(os.sep)[-1]]`. -/
def selectStream (stream : String) (files : List StagedFile) : List StagedFile :=
  files.filter (fun f => hasSubChars stream.data (lastSegment f.path))

/-- The whole per-stream pass: the selected files are concatenated in order
onto the initially-empty table (`dd.concat`); any raised error aborts. -/
def combineStream (stream : String) (files : List StagedFile) :
    Except String (List (Row String)) :=
  (selectStream stream files).foldlM
    (fun acc f => (processFile stream f).map (fun rows => acc ++ rows)) []

/-- `repartition(npartitions=n).to_csv`: the table is written as contiguous
chunks whose concatenation is the table; `n_partitions = max(size // 1GiB, 1)`
is at least one, so a chunk size of `0` degenerates to a single shard. -/
def chunksOf (k : Nat) : List β → List (List β)
  | [] => []
  | x :: xs => (x :: xs).take (max k 1) :: chunksOf k ((x :: xs).drop (max k 1))
termination_by l => l.length
decreasing_by simp [List.length_drop]

/-- The header `deduplicate_and_clean` leaves on a cleaned stage-2 file: the
`names` it read the CSV with (`time,x,y,z` when `"acc.csv" in path`, else
`time,measure_value`), written back by `to_csv`. -/
def cleanedHeader (path : String) : List String :=
  if hasSubChars ("acc.csv".data) path.data then ["time", "x", "y", "z"]
  else ["time", "measure_value"]

/-- The header of a combined stage-3 file: the input columns with the two
assigned columns appended, `ppt_id` first, then `dev_id`. -/
def combinedHeader (path : String) : List String :=
  cleanedHeader path ++ ["ppt_id", "dev_id"]

/-! ### Concrete tables -/

/-- 1000 unique rows: distinct times `0..999`, distinct non-null values. -/
def baseRows : List (Row Nat) := (List.range 1000).map (fun i => [some i, some (i + 1)])

/-- 100 exact duplicates of the last 100 base rows. -/
def copyRows : List (Row Nat) :=
  (List.range 100).map (fun i => [some (900 + i), some (901 + i)])

/-- 200 rows sharing the times of the first 200 base rows, different values. -/
def unclearValueRows : List (Row Nat) :=
  (List.range 200).map (fun i => [some i, some (2000 + i)])

/-- 300 rows sharing the times of base rows 200..499, null values. -/
def nanValueRows : List (Row Nat) :=
  (List.range 300).map (fun i => [some (200 + i), (none : Option Nat)])

/-- The spec's concrete scenario: 1000 unique + 100 perfect + 200 unclear +
300 null-valued time-duplicate rows, 1600 rows in all. -/
def scenario : List (Row Nat) := baseRows ++ copyRows ++ unclearValueRows ++ nanValueRows

/-- Two fully identical rows whose measurement is null. -/
def c1df : List (Row Nat) := [[some 1, none], [some 1, none]]

/-- One accelerometer row with `x` present but `y` missing. -/
def accDemo : List (Row Nat) := [[some 1, some 10, none, some 30]]

/-- An EDA table whose two rows differ only in the sign of a zero. -/
def edaDemo : List (Row String) := [[some "1", some "-0.0"], [some "1", some "0.0"]]

/-- A well-formed staged eda file (for concrete instantiations). -/
def wFile : StagedFile :=
  ⟨"20190801_20190831/U02/FC/096/DEV1/eda.csv", [[some "1", some "0.5"]]⟩

def wFiles : List StagedFile := [wFile]

/-- The table `combineStream "eda" wFiles` produces. -/
def wRows : List (Row String) := [[some "1", some "0.5", some "fc096", some "DEV1"]]

/-- A staged file whose filename contains `temp` but whose stream name parses
to `acc_temp`. -/
def mismatchFile : StagedFile := ⟨"a/b/c/d/acc_temp.csv", []⟩

def mismatchFiles : List StagedFile := [mismatchFile]

def wKey : LedgerKey := ⟨"fc096", "DEV1", "20190801_20190831", "eda"⟩

def wEntry1 : LedgerEntry := ⟨wKey, ⟨1, 2, 3, 10, 4⟩⟩

def wEntry2 : LedgerEntry := ⟨wKey, ⟨5, 6, 7, 20, 13⟩⟩

/-! ### Generic counting lemmas -/

theorem countP_split (p q : β → Bool) (l : List β) :
    l.countP p = l.countP (fun a => p a && q a) + l.countP (fun a => p a && !q a) := by
  induction l with
  | nil => simp
  | cons a l ih =>
    by_cases hp : p a <;> by_cases hq : q a <;>
      simp [List.countP_cons, hp, hq, ih] <;> omega

theorem countP_congr_mem (p q : β → Bool) (l : List β)
    (h : ∀ a ∈ l, p a = q a) : l.countP p = l.countP q := by
  induction l with
  | nil => rfl
  | cons a l ih =>
    have ha := h a (List.mem_cons_self a l)
    simp [List.countP_cons, ha, ih fun b hb => h b (List.mem_cons_of_mem a hb)]

theorem countP_mono_mem (p q : β → Bool) (l : List β)
    (h : ∀ a ∈ l, p a = true → q a = true) : l.countP p ≤ l.countP q := by
  induction l with
  | nil => simp
  | cons a l ih =>
    have ih' := ih fun b hb => h b (List.mem_cons_of_mem a hb)
    by_cases hp : p a
    · have hq := h a (List.mem_cons_self a l) hp
      simp [List.countP_cons, hp, hq]; omega
    · simp only [List.countP_cons, hp]
      by_cases hq : q a <;> simp [hq] <;> omega

/-- A fully duplicated row is in particular time-duplicated: equal rows have
equal `time` cells. -/
theorem dupFull_imp_dupTime (df : List (Row α)) (r : Row α)
    (h : dupFull df r = true) : dupTime df r = true := by
  have hle : countRowEq df r ≤ countTimeEq df (timeOf r) := by
    apply countP_mono_mem
    intro s _ hs
    have : s = r := of_decide_eq_true hs
    subst this
    exact decide_eq_true rfl
  have h2 : 2 ≤ countRowEq df r := of_decide_eq_true h
  exact decide_eq_true (le_trans h2 hle)

theorem dupes_partition (df : List (Row α)) :
    totalDupes df = perfectCount df + unclearCount df := by
  have hsplit := countP_split (dupTime df) (dupFull df) df
  have h1 : df.countP (fun r => dupTime df r && dupFull df r) = perfectCount df := by
    apply countP_congr_mem
    intro r _
    cases hf : dupFull df r with
    | false => simp [hf]
    | true => simp [hf, dupFull_imp_dupTime df r hf]
  have h2 : df.countP (fun r => dupTime df r && !dupFull df r) = unclearCount df := by
    apply countP_congr_mem
    intro r _
    rfl
  rw [totalDupes, hsplit, h1, h2]

/--
C3. Partition law: the counts recorded by `drop_from_df` satisfy
`total_dupes = perfect + unclear` for every stream table — each
time-duplicated row is marked as exactly one of fully-duplicated
(`mask_perf`) or ambiguous (`mask_unclear = mask_all & ~mask_perf`),
with no overlap and no remainder.
-/
theorem partition_law (df : List (Row α)) :
    totalDupes df = perfectCount df + unclearCount df :=
  dupes_partition df

/-! ### `drop_duplicates(keep='last')` -/

theorem mem_of_mem_dropDupKeepLast {l : List (Nat × Row α)} {p : Nat × Row α}
    (h : p ∈ dropDupKeepLast l) : p ∈ l := by
  induction l with
  | nil => simpa [dropDupKeepLast] using h
  | cons q rest ih =>
    cases ha : rest.any (fun x => decide (x.2 = q.2)) with
    | true =>
      rw [show dropDupKeepLast (q :: rest) = dropDupKeepLast rest by
        simp [dropDupKeepLast, ha]] at h
      exact List.mem_cons_of_mem q (ih h)
    | false =>
      rw [show dropDupKeepLast (q :: rest) = q :: dropDupKeepLast rest by
        simp [dropDupKeepLast, ha]] at h
      rcases List.mem_cons.mp h with h | h
      · exact h ▸ List.mem_cons_self q rest
      · exact List.mem_cons_of_mem q (ih h)

theorem nodup_dropDupKeepLast_values (l : List (Nat × Row α)) :
    ((dropDupKeepLast l).map (fun p => p.2)).Nodup := by
  induction l with
  | nil => simp [dropDupKeepLast]
  | cons q rest ih =>
    cases ha : rest.any (fun x => decide (x.2 = q.2)) with
    | true => simpa [dropDupKeepLast, ha] using ih
    | false =>
      rw [show dropDupKeepLast (q :: rest) = q :: dropDupKeepLast rest by
        simp [dropDupKeepLast, ha]]
      rw [List.map_cons, List.nodup_cons]
      refine ⟨fun hmem => ?_, ih⟩
      rcases List.mem_map.mp hmem with ⟨x, hx, hxe⟩
      have : rest.any (fun y => decide (y.2 = q.2)) = true :=
        List.any_eq_true.mpr ⟨x, mem_of_mem_dropDupKeepLast hx, decide_eq_true hxe⟩
      rw [ha] at this
      exact Bool.false_ne_true this

theorem filter_dropDupKeepLast (v : Row α) (l : List (Nat × Row α)) :
    (dropDupKeepLast l).filter (fun p => decide (p.2 = v)) = (lastOcc v l).toList := by
  induction l with
  | nil => simp [dropDupKeepLast, lastOcc]
  | cons q rest ih =>
    cases ha : rest.any (fun x => decide (x.2 = q.2)) with
    | true =>
      rw [show dropDupKeepLast (q :: rest) = dropDupKeepLast rest by
        simp [dropDupKeepLast, ha]]
      by_cases hv : q.2 = v
      · have hne : rest.filter (fun p => decide (p.2 = v)) ≠ [] := by
          rcases List.any_eq_true.mp ha with ⟨x, hx, hxe⟩
          intro h0
          have hmem : x ∈ rest.filter (fun p => decide (p.2 = v)) :=
            List.mem_filter.mpr ⟨hx, decide_eq_true ((of_decide_eq_true hxe).trans hv)⟩
          rw [h0] at hmem
          exact (List.not_mem_nil x) hmem
        obtain ⟨y, ys, hys⟩ := List.exists_cons_of_ne_nil hne
        have hlast : lastOcc v (q :: rest) = lastOcc v rest := by
          simp [lastOcc, List.filter_cons, hv, hys]
        rw [ih, hlast]
      · have hlast : lastOcc v (q :: rest) = lastOcc v rest := by
          simp [lastOcc, List.filter_cons, hv]
        rw [ih, hlast]
    | false =>
      rw [show dropDupKeepLast (q :: rest) = q :: dropDupKeepLast rest by
        simp [dropDupKeepLast, ha]]
      by_cases hv : q.2 = v
      · have hnone : ∀ x ∈ rest, ¬(x.2 = v) := by
          intro x hx hxv
          have : rest.any (fun y => decide (y.2 = q.2)) = true :=
            List.any_eq_true.mpr ⟨x, hx, decide_eq_true (hxv.trans hv.symm)⟩
          rw [ha] at this
          exact Bool.false_ne_true this
        have hfr : rest.filter (fun p => decide (p.2 = v)) = [] :=
          List.filter_eq_nil_iff.mpr fun x hx => by simpa using hnone x hx
        have hfd : (dropDupKeepLast rest).filter (fun p => decide (p.2 = v)) = [] := by
          rw [ih, lastOcc, hfr]
          rfl
        simp [List.filter_cons, hv, hfd, lastOcc, hfr]
      · simp [List.filter_cons, hv, ih, lastOcc]

theorem filter_value_through (g : Nat × Row α → Bool) (v : Row α)
    (l : List (Nat × Row α)) (hg : ∀ p : Nat × Row α, p.2 = v → g p = true) :
    (l.filter g).filter (fun p => decide (p.2 = v)) = l.filter (fun p => decide (p.2 = v)) := by
  induction l with
  | nil => simp
  | cons q rest ih =>
    by_cases hv : q.2 = v
    · have hq : g q = true := hg q hv
      simp [List.filter_cons, hq, hv, ih]
    · cases hgq : g q with
      | true => simp [List.filter_cons, hgq, hv, ih]
      | false => simp [List.filter_cons, hgq, hv, ih]

theorem mem_indexRows_of_mem {df : List (Row α)} {r : Row α} (h : r ∈ df) (n : Nat) :
    ∃ i, (i, r) ∈ indexRows n df := by
  induction df generalizing n with
  | nil => cases h
  | cons s rest ih =>
    rcases List.mem_cons.mp h with h | h
    · exact ⟨n, by simp [indexRows, h]⟩
    · rcases ih h (n + 1) with ⟨i, hi⟩
      exact ⟨i, by rw [indexRows]; exact List.mem_cons_of_mem _ hi⟩

/-- `cleanE` is the keep-last pass over the doubly filtered indexed table. -/
theorem cleanE_eq (df : List (Row α)) :
    cleanE df = dropDupKeepLast ((indexRows 0 df).filter
      (fun p => allSome p.2 && !unclearRow df p.2)) := by
  rw [cleanE, List.filter_filter]

theorem mem_cleanE {df : List (Row α)} {p : Nat × Row α} (h : p ∈ cleanE df) :
    p ∈ indexRows 0 df ∧ allSome p.2 = true ∧ unclearRow df p.2 = false := by
  rw [cleanE_eq] at h
  have h' := mem_of_mem_dropDupKeepLast h
  rcases List.mem_filter.mp h' with ⟨hmem, hand⟩
  rcases Bool.and_eq_true_iff.mp hand with ⟨h1, h2⟩
  exact ⟨hmem, h1, by simpa using h2⟩

theorem allSome_getD {r : Row α} (h : allSome r = true) {i : Nat} (hi : i < r.length) :
    r.getD i none ≠ none := by
  rw [List.getD_eq_getElem r none hi]
  have := List.all_eq_true.mp h _ (r.getElem_mem hi)
  intro hnone
  rw [hnone] at this
  simp at this

theorem cleanE_keeps_last (df : List (Row α)) (v : Row α)
    (hfull : dupFull df v = true) (hsome : allSome v = true) :
    ∃ i, lastOcc v (indexRows 0 df) = some (i, v) ∧
      (cleanE df).filter (fun p => decide (p.2 = v)) = [(i, v)] := by
  have hpass : ∀ p : Nat × Row α, p.2 = v →
      (allSome p.2 && !unclearRow df p.2) = true := by
    intro p hp
    rw [hp]
    have hu : unclearRow df v = false := by
      rw [unclearRow, hfull]
      simp
    rw [hsome, hu]
    rfl
  have hvm : v ∈ df := by
    have hpos : 0 < countRowEq df v := lt_of_lt_of_le (by norm_num) (of_decide_eq_true hfull)
    rcases List.countP_pos_iff.mp hpos with ⟨r, hr, hrv⟩
    exact (of_decide_eq_true hrv) ▸ hr
  rcases mem_indexRows_of_mem hvm 0 with ⟨j, hj⟩
  have hne : (indexRows 0 df).filter (fun p => decide (p.2 = v)) ≠ [] := by
    intro h0
    have : (j, v) ∈ (indexRows 0 df).filter (fun p => decide (p.2 = v)) :=
      List.mem_filter.mpr ⟨hj, decide_eq_true rfl⟩
    rw [h0] at this
    exact (List.not_mem_nil _) this
  have hsome' : (lastOcc v (indexRows 0 df)).isSome := by
    rw [lastOcc]
    exact List.getLast?_isSome.mpr hne
  rcases Option.isSome_iff_exists.mp hsome' with ⟨q, hq⟩
  have hqv : q.2 = v := by
    have hqm : q ∈ (indexRows 0 df).filter (fun p => decide (p.2 = v)) :=
      List.mem_of_getLast?_eq_some (by rw [lastOcc] at hq; exact hq)
    exact of_decide_eq_true (List.mem_filter.mp hqm).2
  have hqeq : q = (q.1, v) := Prod.ext rfl hqv
  refine ⟨q.1, ?_, ?_⟩
  · rw [hq, hqeq]
  · rw [cleanE_eq, filter_dropDupKeepLast]
    have hthr : lastOcc v ((indexRows 0 df).filter
        (fun p => allSome p.2 && !unclearRow df p.2)) = lastOcc v (indexRows 0 df) := by
      simp only [lastOcc]
      rw [filter_value_through _ _ _ hpass]
    rw [hthr, hq, hqeq]
    rfl

/--
C1 (amended). In non-scan mode the cleaned table contains no row of the
original `mask_unclear`, no row with a missing cell (hence none with a null
primary measurement), and no two identical rows; and for every
fully-duplicated row value without nulls — each perfect-duplicate group —
exactly one occurrence survives, namely the last-appearing one in original
row order.  (The per-`time` form of the claim fails: a perfect-duplicate
group whose value is null is dropped entirely, and two distinct
perfect-duplicate groups sharing one time each keep a representative.)
-/
theorem drop_correctness_amended (df : List (Row α)) :
    (∀ p ∈ cleanE df, unclearRow df p.2 = false) ∧
    (∀ p ∈ cleanE df, allSome p.2 = true) ∧
    (∀ p ∈ cleanE df, ∀ i, i < p.2.length → p.2.getD i none ≠ none) ∧
    (cleanedRows df).Nodup ∧
    (∀ v : Row α, dupFull df v = true → allSome v = true →
      ∃ i, lastOcc v (indexRows 0 df) = some (i, v) ∧
        (cleanE df).filter (fun p => decide (p.2 = v)) = [(i, v)]) := by
  refine ⟨fun p hp => (mem_cleanE hp).2.2, fun p hp => (mem_cleanE hp).2.1,
    fun p hp i hi => allSome_getD (mem_cleanE hp).2.1 hi, ?_,
    fun v hfull hsome => cleanE_keeps_last df v hfull hsome⟩
  rw [cleanedRows, cleanE_eq]
  exact nodup_dropDupKeepLast_values _

/--
C1 (counterexample). Two identical rows with time `1` and a null measurement
form a perfect-duplicate group, yet the cleaned table is empty: no
representative of time `1` survives, refuting «exactly one representative
row survives per distinct time value that belonged to a perfect-duplicate
group».
-/
theorem drop_correctness_counterexample :
    dupFull c1df [some 1, none] = true ∧ dupTime c1df [some 1, none] = true ∧
      cleanedRows c1df = [] := by
  refine ⟨by decide, by decide, by decide⟩

/--
C10. `df.dropna()` drops every row with a null in any column, not only in
the primary measurement: every cell of every cleaned row is non-null; and on
the concrete accelerometer table whose single row has `x` present but `y`
null, the recorded nan count (which inspects only `x`) is `0` even though
the row is removed from the cleaned output.
-/
theorem dropna_all_columns :
    (∀ (β : Type) (_ : DecidableEq β) (df : List (Row β)),
      ∀ p ∈ cleanE df, ∀ i, i < p.2.length → p.2.getD i none ≠ none) ∧
    nanCount accDemo = 0 ∧ cleanedRows accDemo = [] := by
  refine ⟨fun β _ df p hp i hi => allSome_getD (mem_cleanE hp).2.1 hi, by decide, by decide⟩

/-! ### Ledger upsert -/

theorem countKey_cons (x : LedgerEntry) (M : List LedgerEntry) (k : LedgerKey) :
    countKey (x :: M) k = (if x.key = k then 1 else 0) + countKey M k := by
  by_cases h : x.key = k
  · simp [countKey, entriesFor, List.filter_cons, h, Nat.add_comm]
  · simp [countKey, entriesFor, List.filter_cons, h]

theorem countKey_mapUpsert (M : List LedgerEntry) (e : LedgerEntry) (k : LedgerKey) :
    countKey (M.map (fun x => if x.key = e.key then e else x)) k = countKey M k := by
  induction M with
  | nil => rfl
  | cons x rest ih =>
    rw [List.map_cons, countKey_cons, countKey_cons, ih]
    congr 1
    by_cases hx : x.key = e.key
    · rw [if_pos hx, hx]
    · rw [if_neg hx]

theorem entriesFor_mapUpsert_self (M : List LedgerEntry) (e : LedgerEntry) :
    entriesFor (M.map (fun x => if x.key = e.key then e else x)) e.key =
      List.replicate (countKey M e.key) e := by
  induction M with
  | nil => rfl
  | cons x rest ih =>
    rw [List.map_cons, countKey_cons]
    by_cases hx : x.key = e.key
    · rw [if_pos hx, if_pos hx, Nat.add_comm, List.replicate_succ]
      rw [show entriesFor (e :: rest.map (fun y => if y.key = e.key then e else y)) e.key =
          e :: entriesFor (rest.map (fun y => if y.key = e.key then e else y)) e.key from by
        simp [entriesFor, List.filter_cons]]
      rw [ih]
    · rw [if_neg hx, if_neg hx, Nat.zero_add]
      rw [show entriesFor (x :: rest.map (fun y => if y.key = e.key then e else y)) e.key =
          entriesFor (rest.map (fun y => if y.key = e.key then e else y)) e.key from by
        simp [entriesFor, List.filter_cons, hx]]
      rw [ih]

theorem countKey_append_one (M : List LedgerEntry) (e : LedgerEntry) (k : LedgerKey) :
    countKey (M ++ [e]) k = countKey M k + (if e.key = k then 1 else 0) := by
  by_cases hk : e.key = k <;>
    simp [countKey, entriesFor, List.filter_append, List.filter_cons, hk]

theorem any_key_iff (M : List LedgerEntry) (k : LedgerKey) :
    (M.any fun x => decide (x.key = k)) = true ↔ 0 < countKey M k := by
  rw [List.any_eq_true]
  constructor
  · rintro ⟨x, hx, hxk⟩
    have hmem : x ∈ entriesFor M k := List.mem_filter.mpr ⟨hx, hxk⟩
    refine List.length_pos.mpr fun h0 => ?_
    rw [h0] at hmem
    exact (List.not_mem_nil x) hmem
  · intro hpos
    have hne : entriesFor M k ≠ [] := by
      intro h0
      rw [countKey, h0] at hpos
      simp at hpos
    obtain ⟨y, ys, hys⟩ := List.exists_cons_of_ne_nil hne
    have hy : y ∈ entriesFor M k := by
      rw [hys]
      exact List.mem_cons_self _ _
    exact ⟨y, (List.mem_filter.mp hy).1, (List.mem_filter.mp hy).2⟩

theorem upsert_countKey (M : List LedgerEntry) (e : LedgerEntry) (k : LedgerKey) :
    countKey (upsert M e) k =
      if (M.any fun x => decide (x.key = e.key)) = true then countKey M k
      else countKey M k + (if e.key = k then 1 else 0) := by
  rw [upsert]
  by_cases h : (M.any fun x => decide (x.key = e.key)) = true
  · rw [if_pos h, if_pos h, countKey_mapUpsert]
  · rw [if_neg h, if_neg h, countKey_append_one]

theorem upsert_preserves_one_per_key (M : List LedgerEntry) (e : LedgerEntry)
    (hinv : ∀ k, countKey M k ≤ 1) : ∀ k, countKey (upsert M e) k ≤ 1 := by
  intro k
  rw [upsert_countKey]
  by_cases h : (M.any fun x => decide (x.key = e.key)) = true
  · rw [if_pos h]
    exact hinv k
  · rw [if_neg h]
    by_cases hk : e.key = k
    · rw [if_pos hk]
      have hz : countKey M k = 0 := by
        by_contra hne
        have hpos : 0 < countKey M k := Nat.pos_of_ne_zero hne
        rw [← hk] at hpos
        exact h ((any_key_iff M e.key).mpr hpos)
      omega
    · rw [if_neg hk]
      have := hinv k
      omega

theorem upsert_twice_entries (L : List LedgerEntry) (e1 e2 : LedgerEntry)
    (hk : e1.key = e2.key) (hinv : ∀ k, countKey L k ≤ 1) :
    entriesFor (upsert (upsert L e1) e2) e2.key = [e2] := by
  have h1 : countKey (upsert L e1) e1.key = 1 := by
    rw [upsert_countKey]
    by_cases h : (L.any fun x => decide (x.key = e1.key)) = true
    · rw [if_pos h]
      have hpos := (any_key_iff L e1.key).mp h
      have := hinv e1.key
      omega
    · rw [if_neg h, if_pos rfl]
      have hz : countKey L e1.key = 0 := by
        by_contra hne
        exact h ((any_key_iff L e1.key).mpr (Nat.pos_of_ne_zero hne))
      omega
  have hany : ((upsert L e1).any fun x => decide (x.key = e2.key)) = true := by
    apply (any_key_iff _ _).mpr
    rw [← hk, h1]
    norm_num
  rw [upsert, if_pos hany, entriesFor_mapUpsert_self, ← hk, h1]
  rfl

/--
C2. Ledger upsert: starting from a ledger with at most one row per key,
updating the same key twice with different counts leaves exactly one row for
that key, holding the second call's values — the second call overwrites in
place (`drop_df.loc[log_index, k] = v`) instead of appending — and one
upsert (hence any sequence of upserts) preserves the one-live-entry-per-key
invariant.
-/
theorem ledger_upsert (L : List LedgerEntry) (e1 e2 : LedgerEntry)
    (hk : e1.key = e2.key) (hinv : ∀ k, countKey L k ≤ 1) :
    entriesFor (upsert (upsert L e1) e2) e2.key = [e2] ∧
    countKey (upsert (upsert L e1) e2) e2.key = 1 ∧
    (∀ k, countKey (upsert (upsert L e1) e2) k ≤ 1) ∧
    (∀ (M : List LedgerEntry) (e : LedgerEntry),
      (∀ k, countKey M k ≤ 1) → ∀ k, countKey (upsert M e) k ≤ 1) := by
  have h := upsert_twice_entries L e1 e2 hk hinv
  refine ⟨h, ?_,
    upsert_preserves_one_per_key _ _ (upsert_preserves_one_per_key _ _ hinv),
    fun M e hM => upsert_preserves_one_per_key M e hM⟩
  rw [countKey, h]
  rfl

/-- C2 (witness): two upserts with the same key and different counts on the
empty ledger. -/
theorem ledger_upsert_witness :
    entriesFor (upsert (upsert [] wEntry1) wEntry2) wEntry2.key = [wEntry2] ∧
    countKey (upsert (upsert [] wEntry1) wEntry2) wEntry2.key = 1 ∧
    (∀ k, countKey (upsert (upsert [] wEntry1) wEntry2) k ≤ 1) ∧
    (∀ (M : List LedgerEntry) (e : LedgerEntry),
      (∀ k, countKey M k ≤ 1) → ∀ k, countKey (upsert M e) k ≤ 1) :=
  ledger_upsert [] wEntry1 wEntry2 rfl (fun _ => Nat.zero_le _)

/-! ### Path metadata extraction -/

/--
C6. `extract_ids_from_path` followed by the month lookup in `drop_from_df`:
on a path with at least four segments and an `8digit_8digit` token it
returns the device id (second segment from the end, the filename being the
first) and the participant id (lowercased fourth-from-end segment
concatenated with the third-from-end); with fewer than four segments, or
with the date token absent, the step raises (`IndexError`) instead of
returning a result.
-/
theorem extract_ids_spec (p : String) :
    (4 ≤ (pathSegments p).length → hasDateToken p = true →
      extractMeta p = some ((pathSegments p).getD ((pathSegments p).length - 2) [],
        lowerChars ((pathSegments p).getD ((pathSegments p).length - 4) []) ++
          (pathSegments p).getD ((pathSegments p).length - 3) [])) ∧
    ((pathSegments p).length < 4 → extractMeta p = none) ∧
    (hasDateToken p = false → extractMeta p = none) := by
  refine ⟨fun h4 ht => ?_, fun h4 => ?_, fun ht => ?_⟩
  · simp [extractMeta, extract_ids_from_path, h4, ht]
  · have h4' : ¬ 4 ≤ (pathSegments p).length := by omega
    simp [extractMeta, extract_ids_from_path, h4']
  · by_cases h4 : 4 ≤ (pathSegments p).length <;>
      simp [extractMeta, extract_ids_from_path, h4, ht]

/-- C6 (witness): the layout example from the code's docstring. -/
theorem extract_ids_spec_witness :
    extractMeta "Sensors_U02_ALLSITES_20190801_20190831/U02/FC/096/2M4Y4111FK/temp.csv"
      = some ("2M4Y4111FK".data, "fc096".data) := by
  have h := (extract_ids_spec
    "Sensors_U02_ALLSITES_20190801_20190831/U02/FC/096/2M4Y4111FK/temp.csv").1
    (by decide) (by decide)
  rw [h]
  decide

/-! ### Output headers -/

/--
C7 (counterexample). On an accelerometer file the combined output header is
`time,x,y,z,ppt_id,dev_id` — `assign(ppt_id=...)` runs before
`assign(dev_id=...)`, appending columns in that order — not the claimed
`time,x,y,z,dev_id,ppt_id`.
-/
theorem header_counterexample :
    combinedHeader "20190801_20190831/U02/FC/096/DEV1/acc.csv"
        = ["time", "x", "y", "z", "ppt_id", "dev_id"] ∧
    combinedHeader "20190801_20190831/U02/FC/096/DEV1/acc.csv"
        ≠ ["time", "x", "y", "z", "dev_id", "ppt_id"] := by
  refine ⟨by decide, by decide⟩

/--
C7 (amended). Every combined output file begins with the stage-2 column
header for its stream followed by the appended id columns in assignment
order: exactly `time,x,y,z,ppt_id,dev_id` for accelerometer files and
exactly `time,measure_value,ppt_id,dev_id` otherwise.
-/
theorem header_amended (p : String) :
    (hasSubChars ("acc.csv".data) p.data = true →
      combinedHeader p = ["time", "x", "y", "z", "ppt_id", "dev_id"]) ∧
    (hasSubChars ("acc.csv".data) p.data = false →
      combinedHeader p = ["time", "measure_value", "ppt_id", "dev_id"]) := by
  refine ⟨fun h => ?_, fun h => ?_⟩ <;> simp [combinedHeader, cleanedHeader, h]

/-! ### EDA sign-of-zero normalization -/

/--
C8. Before any duplicate classification, an EDA file (the filename contains
`eda`) has every literal `-0.0` measurement rewritten to `0.0`, so no cleaned
EDA row carries `-0.0` and two rows differing only in the sign of a zero
become perfect duplicates rather than unclear ones; a non-EDA table passes
through unchanged.
-/
theorem eda_normalization (path : String) (df : List (Row String)) :
    (hasSubChars ("eda".data) (lastSegment path) = true →
      ∀ r ∈ loadNormalize path df, ¬ primaryOf r = some "-0.0") ∧
    (hasSubChars ("eda".data) (lastSegment path) = false → loadNormalize path df = df) ∧
    dupFull (loadNormalize "eda.csv" edaDemo) [some "1", some "0.0"] = true ∧
    unclearRow edaDemo [some "1", some "-0.0"] = true := by
  refine ⟨fun h r hr => ?_, fun h => by simp [loadNormalize, h], by decide, by decide⟩
  rw [loadNormalize, if_pos h] at hr
  rcases List.mem_map.mp hr with ⟨s, _, hs⟩
  rw [← hs]
  cases s with
  | nil => simp [edaNormalizeRow, primaryOf]
  | cons t rest =>
    cases rest with
    | nil => simp [edaNormalizeRow, primaryOf]
    | cons v rest2 =>
      rw [show edaNormalizeRow (t :: v :: rest2) = t :: normalizeCell v :: rest2 from rfl]
      rw [show primaryOf (t :: normalizeCell v :: rest2) = normalizeCell v from rfl]
      rw [normalizeCell]
      by_cases hv : v = some "-0.0"
      · rw [if_pos hv]
        decide
      · rw [if_neg hv]
        exact hv

/-! ### Stream combining -/

theorem processFile_ok_parsed {stream : String} {f : StagedFile} {v : List (Row String)}
    (h : processFile stream f = Except.ok v) : parsedStreamName f.path = stream.data := by
  cases hex : extract_ids_from_path f.path with
  | none => simp [processFile, hex] at h
  | some ids =>
    obtain ⟨dev, ppt⟩ := ids
    by_cases hp : parsedStreamName f.path = stream.data
    · exact hp
    · simp [processFile, hex, hp] at h

theorem processFile_ok_length {stream : String} {f : StagedFile} {v : List (Row String)}
    (h : processFile stream f = Except.ok v) : v.length = f.rows.length := by
  cases hex : extract_ids_from_path f.path with
  | none => simp [processFile, hex] at h
  | some ids =>
    obtain ⟨dev, ppt⟩ := ids
    by_cases hp : parsedStreamName f.path = stream.data
    · simp [processFile, hex, hp] at h
      rw [← h]
      simp [addIdCols]
    · simp [processFile, hex, hp] at h

theorem error_of_mismatch (stream : String) (sel : List StagedFile) :
    ∀ (acc : List (Row String)) (f : StagedFile), f ∈ sel →
      parsedStreamName f.path ≠ stream.data →
      ∃ msg, sel.foldlM (fun acc g => (processFile stream g).map (fun rows => acc ++ rows)) acc
        = Except.error msg := by
  induction sel with
  | nil =>
    intro acc f hf
    cases hf
  | cons g gs ih =>
    intro acc f hf hm
    rw [List.foldlM_cons]
    cases hpg : processFile stream g with
    | error msg => exact ⟨msg, rfl⟩
    | ok v =>
      rcases List.mem_cons.mp hf with hfg | hfg
      · subst hfg
        exact absurd (processFile_ok_parsed hpg) hm
      · rcases ih (acc ++ v) f hfg hm with ⟨msg, hmsg⟩
        exact ⟨msg, hmsg⟩

/--
C9. During combining, every selected file's parsed stream name is asserted
equal to the stream being processed: if any selected file's filename parses
to a different stream, the whole pass stops with an error — the file is not
skipped, no combined table is produced.
-/
theorem stream_mismatch_hard_error (stream : String) (files : List StagedFile)
    (f : StagedFile) (hf : f ∈ selectStream stream files)
    (hm : parsedStreamName f.path ≠ stream.data) :
    ∃ msg, combineStream stream files = Except.error msg := by
  rw [combineStream]
  exact error_of_mismatch stream (selectStream stream files) [] f hf hm

/-- C9 (witness): a file named `acc_temp.csv` is selected for stream `temp`
by the substring test but parses to `acc_temp`, so combining errors out. -/
theorem stream_mismatch_witness :
    ∃ msg, combineStream "temp" mismatchFiles = Except.error msg :=
  stream_mismatch_hard_error "temp" mismatchFiles mismatchFile (by decide) (by decide)

theorem chunksOf_flatten_aux (k : Nat) :
    ∀ (n : Nat) (l : List β), l.length ≤ n → (chunksOf k l).flatten = l := by
  intro n
  induction n with
  | zero =>
    intro l hl
    rw [List.eq_nil_of_length_eq_zero (Nat.le_zero.mp hl)]
    simp [chunksOf]
  | succ n ih =>
    intro l hl
    cases l with
    | nil => simp [chunksOf]
    | cons x xs =>
      rw [chunksOf, List.flatten_cons, ih ((x :: xs).drop (max k 1)) (by
        simp only [List.length_drop, List.length_cons] at hl ⊢
        omega)]
      exact List.take_append_drop _ _

theorem chunksOf_flatten (k : Nat) (l : List β) : (chunksOf k l).flatten = l :=
  chunksOf_flatten_aux k l.length l (le_refl _)

theorem sum_length_chunksOf (k : Nat) (l : List β) :
    ((chunksOf k l).map List.length).sum = l.length := by
  rw [← List.length_flatten, chunksOf_flatten]

theorem combine_fold_length (stream : String) (sel : List StagedFile) :
    ∀ (acc rows : List (Row String)),
      sel.foldlM (fun acc g => (processFile stream g).map (fun rs => acc ++ rs)) acc
          = Except.ok rows →
      rows.length = acc.length + (sel.map (fun f => f.rows.length)).sum := by
  induction sel with
  | nil =>
    intro acc rows h
    rw [List.foldlM_nil] at h
    have hh : acc = rows := by
      simpa [pure, Except.pure] using h
    rw [← hh]
    simp
  | cons g gs ih =>
    intro acc rows h
    rw [List.foldlM_cons] at h
    cases hpg : processFile stream g with
    | error msg =>
      rw [hpg] at h
      have h' : (Except.error msg : Except String (List (Row String))) = Except.ok rows := h
      exact Except.noConfusion h'
    | ok v =>
      rw [hpg] at h
      have h' : gs.foldlM (fun acc g => (processFile stream g).map (fun rs => acc ++ rs))
          (acc ++ v) = Except.ok rows := h
      have hlen := ih (acc ++ v) rows h'
      rw [hlen, List.length_append, processFile_ok_length hpg, List.map_cons, List.sum_cons]
      omega

/--
C5. Row conservation across recombination: when combining succeeds, the
total row count over all output shards (`repartition(...).to_csv`, modelled
as contiguous chunks) equals the total row count over the selected cleaned
input files — repacking neither loses nor duplicates a row.
-/
theorem row_conservation (stream : String) (files : List StagedFile) (k : Nat)
    (rows : List (Row String)) (h : combineStream stream files = Except.ok rows) :
    ((chunksOf k rows).map List.length).sum
      = ((selectStream stream files).map (fun f => f.rows.length)).sum := by
  rw [sum_length_chunksOf]
  rw [combineStream] at h
  simpa using combine_fold_length stream (selectStream stream files) [] rows h

/-- C5 (witness): one well-formed eda file, chunk size two. -/
theorem row_conservation_witness :
    ((chunksOf 2 wRows).map List.length).sum
      = ((selectStream "eda" wFiles).map (fun f => f.rows.length)).sum :=
  row_conservation "eda" wFiles 2 wRows (by rfl)

/-! ### The concrete scenario's counts

Brute-force evaluation of the quadratic masks over 1600 rows is beyond
kernel reduction, so the counts are derived structurally: `countP` is split
over the four appended segments, each segment is a `map` over a `range`, and
on a range the predicates reduce to interval tests with closed forms. -/

theorem countP_range_eq (t n : Nat) :
    (List.range n).countP (fun j => decide (j = t)) = if t < n then 1 else 0 := by
  induction n with
  | zero =>
    simp only [List.range_zero, List.countP_nil]
    split_ifs with h
    · omega
    · rfl
  | succ n ih =>
    rw [List.range_succ, List.countP_append, ih]
    simp only [List.countP_cons, List.countP_nil, decide_eq_true_eq]
    split_ifs <;> omega

theorem countP_range_shift (a t n : Nat) :
    (List.range n).countP (fun j => decide (a + j = t)) =
      if a ≤ t ∧ t < a + n then 1 else 0 := by
  induction n with
  | zero =>
    simp only [List.range_zero, List.countP_nil]
    split_ifs with h
    · omega
    · rfl
  | succ n ih =>
    rw [List.range_succ, List.countP_append, ih]
    simp only [List.countP_cons, List.countP_nil, decide_eq_true_eq]
    split_ifs <;> omega

theorem countP_map_range (g : Nat → Row Nat) (p : Row Nat → Bool) (q : Nat → Bool)
    (m : Nat) (h : ∀ j, j < m → p (g j) = q j) :
    ((List.range m).map g).countP p = (List.range m).countP q := by
  rw [List.countP_map]
  refine countP_congr_mem _ _ _ fun j hj => ?_
  have := h j (List.mem_range.mp hj)
  simpa [Function.comp] using this

theorem filter_map_range (g : Nat → Row Nat) (p : Row Nat → Bool) (q : Nat → Bool)
    (m : Nat) (h : ∀ j, j < m → p (g j) = q j) :
    ((List.range m).map g).filter p = ((List.range m).filter q).map g := by
  rw [List.filter_map]
  congr 1
  refine List.filter_congr fun j hj => ?_
  have := h j (List.mem_range.mp hj)
  simpa [Function.comp] using this

theorem countP_scenario (p : Row Nat → Bool) :
    scenario.countP p = baseRows.countP p + copyRows.countP p +
      unclearValueRows.countP p + nanValueRows.countP p := by
  rw [scenario, List.countP_append, List.countP_append, List.countP_append]

theorem filter_scenario (p : Row Nat → Bool) :
    scenario.filter p = baseRows.filter p ++ copyRows.filter p ++
      unclearValueRows.filter p ++ nanValueRows.filter p := by
  rw [scenario, List.filter_append, List.filter_append, List.filter_append]

theorem countTime_base (t : Nat) :
    baseRows.countP (fun r => decide (timeOf r = some t)) = if t < 1000 then 1 else 0 := by
  rw [baseRows, countP_map_range _ _ (fun j => decide (j = t)) 1000 (fun j _ =>
    decide_eq_decide.mpr (by
      rw [show timeOf [some j, some (j + 1)] = some j from rfl]
      exact Option.some_inj)), countP_range_eq]

theorem countTime_copy (t : Nat) :
    copyRows.countP (fun r => decide (timeOf r = some t)) =
      if 900 ≤ t ∧ t < 900 + 100 then 1 else 0 := by
  rw [copyRows, countP_map_range _ _ (fun j => decide (900 + j = t)) 100 (fun j _ =>
    decide_eq_decide.mpr (by
      rw [show timeOf [some (900 + j), some (901 + j)] = some (900 + j) from rfl]
      exact Option.some_inj)), countP_range_shift]

theorem countTime_unclear (t : Nat) :
    unclearValueRows.countP (fun r => decide (timeOf r = some t)) =
      if t < 200 then 1 else 0 := by
  rw [unclearValueRows, countP_map_range _ _ (fun j => decide (j = t)) 200 (fun j _ =>
    decide_eq_decide.mpr (by
      rw [show timeOf [some j, some (2000 + j)] = some j from rfl]
      exact Option.some_inj)), countP_range_eq]

theorem countTime_nan (t : Nat) :
    nanValueRows.countP (fun r => decide (timeOf r = some t)) =
      if 200 ≤ t ∧ t < 200 + 300 then 1 else 0 := by
  rw [nanValueRows, countP_map_range _ _ (fun j => decide (200 + j = t)) 300 (fun j _ =>
    decide_eq_decide.mpr (by
      rw [show timeOf [some (200 + j), none] = some (200 + j) from rfl]
      exact Option.some_inj)), countP_range_shift]

theorem countTime_scenario (t : Nat) :
    countTimeEq scenario (some t) =
      (if t < 1000 then 1 else 0) + (if 900 ≤ t ∧ t < 900 + 100 then 1 else 0) +
        (if t < 200 then 1 else 0) + (if 200 ≤ t ∧ t < 200 + 300 then 1 else 0) := by
  rw [countTimeEq, countP_scenario, countTime_base, countTime_copy, countTime_unclear,
    countTime_nan]

theorem countRow_base (i : Nat) :
    countRowEq scenario [some i, some (i + 1)] =
      (if i < 1000 then 1 else 0) + (if 900 ≤ i ∧ i < 900 + 100 then 1 else 0) := by
  rw [countRowEq, countP_scenario]
  rw [baseRows, countP_map_range _ _ (fun j => decide (j = i)) 1000 (fun j _ =>
    decide_eq_decide.mpr (by
      simp only [List.cons.injEq, Option.some.injEq, and_true]
      omega)), countP_range_eq]
  rw [copyRows, countP_map_range _ _ (fun j => decide (900 + j = i)) 100 (fun j _ =>
    decide_eq_decide.mpr (by
      simp only [List.cons.injEq, Option.some.injEq, and_true]
      omega)), countP_range_shift]
  rw [unclearValueRows, countP_map_range _ _ (fun _ => false) 200 (fun j _ =>
    decide_eq_false (by
      simp only [List.cons.injEq, Option.some.injEq, and_true]
      omega))]
  rw [nanValueRows, countP_map_range _ _ (fun _ => false) 300 (fun j _ =>
    decide_eq_false (by simp))]
  simp [List.countP_false]

theorem countRow_unclear (i : Nat) :
    countRowEq scenario [some i, some (2000 + i)] = if i < 200 then 1 else 0 := by
  rw [countRowEq, countP_scenario]
  rw [baseRows, countP_map_range _ _ (fun _ => false) 1000 (fun j _ =>
    decide_eq_false (by
      simp only [List.cons.injEq, Option.some.injEq, and_true]
      omega))]
  rw [copyRows, countP_map_range _ _ (fun _ => false) 100 (fun j _ =>
    decide_eq_false (by
      simp only [List.cons.injEq, Option.some.injEq, and_true]
      omega))]
  rw [unclearValueRows, countP_map_range _ _ (fun j => decide (j = i)) 200 (fun j _ =>
    decide_eq_decide.mpr (by
      simp only [List.cons.injEq, Option.some.injEq, and_true]
      omega)), countP_range_eq]
  rw [nanValueRows, countP_map_range _ _ (fun _ => false) 300 (fun j _ =>
    decide_eq_false (by simp))]
  simp [List.countP_false]

theorem countRow_nan (i : Nat) :
    countRowEq scenario [some (200 + i), none] =
      if 200 ≤ 200 + i ∧ 200 + i < 200 + 300 then 1 else 0 := by
  rw [countRowEq, countP_scenario]
  rw [baseRows, countP_map_range _ _ (fun _ => false) 1000 (fun j _ =>
    decide_eq_false (by simp))]
  rw [copyRows, countP_map_range _ _ (fun _ => false) 100 (fun j _ =>
    decide_eq_false (by simp))]
  rw [unclearValueRows, countP_map_range _ _ (fun _ => false) 200 (fun j _ =>
    decide_eq_false (by simp))]
  rw [nanValueRows, countP_map_range _ _ (fun j => decide (200 + j = 200 + i)) 300
    (fun j _ => decide_eq_decide.mpr (by
      simp only [List.cons.injEq, Option.some.injEq, and_true])), countP_range_shift]
  simp [List.countP_false]

/-! #### Pointwise mask values on the scenario's rows -/

theorem dupTime_base (j : Nat) (hj : j < 1000) :
    dupTime scenario [some j, some (j + 1)] = decide (j < 500 ∨ 900 ≤ j) := by
  show decide (2 ≤ countTimeEq scenario (timeOf [some j, some (j + 1)])) = _
  rw [show timeOf [some j, some (j + 1)] = some j from rfl, countTime_scenario]
  exact decide_eq_decide.mpr (by split_ifs <;> omega)

theorem dupTime_copy (i : Nat) (hi : i < 100) :
    dupTime scenario [some (900 + i), some (901 + i)] = true := by
  show decide (2 ≤ countTimeEq scenario (timeOf [some (900 + i), some (901 + i)])) = _
  rw [show timeOf [some (900 + i), some (901 + i)] = some (900 + i) from rfl,
    countTime_scenario]
  exact decide_eq_true (by split_ifs <;> omega)

theorem dupTime_unclear (i : Nat) (hi : i < 200) :
    dupTime scenario [some i, some (2000 + i)] = true := by
  show decide (2 ≤ countTimeEq scenario (timeOf [some i, some (2000 + i)])) = _
  rw [show timeOf [some i, some (2000 + i)] = some i from rfl, countTime_scenario]
  exact decide_eq_true (by split_ifs <;> omega)

theorem dupTime_nan (i : Nat) (hi : i < 300) :
    dupTime scenario [some (200 + i), none] = true := by
  show decide (2 ≤ countTimeEq scenario (timeOf [some (200 + i), none])) = _
  rw [show timeOf [some (200 + i), none] = some (200 + i) from rfl, countTime_scenario]
  exact decide_eq_true (by split_ifs <;> omega)

theorem dupFull_base (j : Nat) (hj : j < 1000) :
    dupFull scenario [some j, some (j + 1)] = decide (900 ≤ j) := by
  show decide (2 ≤ countRowEq scenario [some j, some (j + 1)]) = _
  rw [countRow_base]
  exact decide_eq_decide.mpr (by split_ifs <;> omega)

theorem dupFull_copy (i : Nat) (hi : i < 100) :
    dupFull scenario [some (900 + i), some (901 + i)] = true := by
  show decide (2 ≤ countRowEq scenario [some (900 + i), some (901 + i)]) = _
  rw [show (901 + i) = (900 + i) + 1 from by omega, countRow_base]
  exact decide_eq_true (by split_ifs <;> omega)

theorem dupFull_unclear (i : Nat) (hi : i < 200) :
    dupFull scenario [some i, some (2000 + i)] = false := by
  show decide (2 ≤ countRowEq scenario [some i, some (2000 + i)]) = _
  rw [countRow_unclear]
  exact decide_eq_false (by split_ifs <;> omega)

theorem dupFull_nan (i : Nat) (hi : i < 300) :
    dupFull scenario [some (200 + i), none] = false := by
  show decide (2 ≤ countRowEq scenario [some (200 + i), none]) = _
  rw [countRow_nan]
  exact decide_eq_false (by split_ifs <;> omega)

theorem unclear_base (j : Nat) (hj : j < 1000) :
    unclearRow scenario [some j, some (j + 1)] = decide (j < 500) := by
  rw [unclearRow, dupTime_base j hj, dupFull_base j hj]
  by_cases h9 : 900 ≤ j
  · have h5 : ¬ j < 500 := by omega
    simp [h9, h5]
  · by_cases h5 : j < 500 <;> simp [h9, h5]

theorem unclear_copy (i : Nat) (hi : i < 100) :
    unclearRow scenario [some (900 + i), some (901 + i)] = false := by
  rw [unclearRow, dupFull_copy i hi]
  simp

theorem unclear_unclear (i : Nat) (hi : i < 200) :
    unclearRow scenario [some i, some (2000 + i)] = true := by
  rw [unclearRow, dupTime_unclear i hi, dupFull_unclear i hi]
  rfl

theorem unclear_nan (i : Nat) (hi : i < 300) :
    unclearRow scenario [some (200 + i), none] = true := by
  rw [unclearRow, dupTime_nan i hi, dupFull_nan i hi]
  rfl

/-! #### The recorded counts on the scenario -/

theorem scenario_totalRows : totalRows scenario = 1600 := by
  simp [totalRows, scenario, baseRows, copyRows, unclearValueRows, nanValueRows]

set_option maxRecDepth 40000 in
theorem scenario_totalDupes : totalDupes scenario = 1200 := by
  rw [totalDupes, countP_scenario]
  rw [baseRows, countP_map_range _ _ (fun j => decide (j < 500 ∨ 900 ≤ j)) 1000
    (fun j hj => dupTime_base j hj)]
  rw [copyRows, countP_map_range _ _ (fun _ => true) 100 (fun i hi => dupTime_copy i hi)]
  rw [unclearValueRows, countP_map_range _ _ (fun _ => true) 200
    (fun i hi => dupTime_unclear i hi)]
  rw [nanValueRows, countP_map_range _ _ (fun _ => true) 300 (fun i hi => dupTime_nan i hi)]
  have h1 : (List.range 1000).countP (fun j => decide (j < 500 ∨ 900 ≤ j)) = 600 := by
    decide
  rw [h1]
  simp

set_option maxRecDepth 40000 in
theorem scenario_perfect : perfectCount scenario = 200 := by
  rw [perfectCount, countP_scenario]
  rw [baseRows, countP_map_range _ _ (fun j => decide (900 ≤ j)) 1000
    (fun j hj => dupFull_base j hj)]
  rw [copyRows, countP_map_range _ _ (fun _ => true) 100 (fun i hi => dupFull_copy i hi)]
  rw [unclearValueRows, countP_map_range _ _ (fun _ => false) 200
    (fun i hi => dupFull_unclear i hi)]
  rw [nanValueRows, countP_map_range _ _ (fun _ => false) 300 (fun i hi => dupFull_nan i hi)]
  have h1 : (List.range 1000).countP (fun j => decide (900 ≤ j)) = 100 := by
    decide
  rw [h1]
  simp [List.countP_false]

theorem scenario_unclear : unclearCount scenario = 1000 := by
  have h := dupes_partition scenario
  rw [scenario_totalDupes, scenario_perfect] at h
  omega

set_option maxRecDepth 40000 in
theorem scenario_nan : nanCount scenario = 300 := by
  rw [nanCount, countP_scenario]
  rw [baseRows, countP_map_range _ _ (fun _ => false) 1000
    (fun j _ => decide_eq_false (by simp [primaryOf]))]
  rw [copyRows, countP_map_range _ _ (fun _ => false) 100
    (fun i _ => decide_eq_false (by simp [primaryOf]))]
  rw [unclearValueRows, countP_map_range _ _ (fun _ => false) 200
    (fun i _ => decide_eq_false (by simp [primaryOf]))]
  rw [nanValueRows, countP_map_range _ _ (fun _ => true) 300
    (fun i _ => decide_eq_true (by rfl))]
  simp [List.countP_false]

/-! #### The cleaned row count on the scenario -/

theorem map_snd_indexRows (n : Nat) (df : List (Row α)) :
    (indexRows n df).map (fun p => p.2) = df := by
  induction df generalizing n with
  | nil => rfl
  | cons r rest ih => rw [indexRows, List.map_cons, ih]

theorem map_snd_filter_snd (g : Row α → Bool) (l : List (Nat × Row α)) :
    (l.filter (fun p => g p.2)).map (fun p => p.2) = (l.map (fun p => p.2)).filter g := by
  induction l with
  | nil => rfl
  | cons q rest ih =>
    cases hq : g q.2 with
    | true => simp [List.filter_cons, hq, ih]
    | false => simp [List.filter_cons, hq, ih]

theorem any_snd_map (v : Row α) (l : List (Nat × Row α)) :
    ((l.map (fun p => p.2)).any fun y => decide (y = v)) =
      (l.any fun x => decide (x.2 = v)) := by
  induction l with
  | nil => rfl
  | cons a as ih => simp [List.map_cons, List.any_cons, ih]

theorem map_snd_dropDupKeepLast (l : List (Nat × Row α)) :
    (dropDupKeepLast l).map (fun p => p.2) = dropDupKeepLastV (l.map (fun p => p.2)) := by
  induction l with
  | nil => rfl
  | cons q rest ih =>
    have hany := any_snd_map q.2 rest
    cases ha : rest.any (fun x => decide (x.2 = q.2)) with
    | true =>
      rw [show dropDupKeepLast (q :: rest) = dropDupKeepLast rest from by
        simp [dropDupKeepLast, ha]]
      rw [List.map_cons,
        show dropDupKeepLastV (q.2 :: rest.map (fun p => p.2)) =
          dropDupKeepLastV (rest.map (fun p => p.2)) from by
        simp [dropDupKeepLastV, hany, ha]]
      exact ih
    | false =>
      rw [show dropDupKeepLast (q :: rest) = q :: dropDupKeepLast rest from by
        simp [dropDupKeepLast, ha]]
      rw [List.map_cons, List.map_cons,
        show dropDupKeepLastV (q.2 :: rest.map (fun p => p.2)) =
          q.2 :: dropDupKeepLastV (rest.map (fun p => p.2)) from by
        simp [dropDupKeepLastV, hany, ha]]
      rw [ih]

theorem cleanedRows_eq_value (df : List (Row α)) :
    cleanedRows df = dropDupKeepLastV
      ((df.filter (fun r => !unclearRow df r)).filter allSome) := by
  rw [cleanedRows, cleanE, map_snd_dropDupKeepLast, map_snd_filter_snd allSome,
    map_snd_filter_snd (fun r => !unclearRow df r), map_snd_indexRows]

theorem mem_dropDupKeepLastV_iff {l : List (Row α)} {r : Row α} :
    r ∈ dropDupKeepLastV l ↔ r ∈ l := by
  induction l with
  | nil => simp [dropDupKeepLastV]
  | cons q rest ih =>
    cases ha : rest.any (fun x => decide (x = q)) with
    | true =>
      rw [show dropDupKeepLastV (q :: rest) = dropDupKeepLastV rest from by
        simp [dropDupKeepLastV, ha]]
      rw [ih]
      constructor
      · exact fun h => List.mem_cons_of_mem q h
      · intro h
        rcases List.mem_cons.mp h with h | h
        · rcases List.any_eq_true.mp ha with ⟨x, hx, hxe⟩
          have hxq : x = q := of_decide_eq_true hxe
          subst hxq
          exact h ▸ hx
        · exact h
    | false =>
      rw [show dropDupKeepLastV (q :: rest) = q :: dropDupKeepLastV rest from by
        simp [dropDupKeepLastV, ha]]
      simp [ih]

theorem nodup_dropDupKeepLastV (l : List (Row α)) : (dropDupKeepLastV l).Nodup := by
  induction l with
  | nil => simp [dropDupKeepLastV]
  | cons q rest ih =>
    cases ha : rest.any (fun x => decide (x = q)) with
    | true =>
      rw [show dropDupKeepLastV (q :: rest) = dropDupKeepLastV rest from by
        simp [dropDupKeepLastV, ha]]
      exact ih
    | false =>
      rw [show dropDupKeepLastV (q :: rest) = q :: dropDupKeepLastV rest from by
        simp [dropDupKeepLastV, ha]]
      rw [List.nodup_cons]
      refine ⟨fun hmem => ?_, ih⟩
      have hq : q ∈ rest := mem_dropDupKeepLastV_iff.mp hmem
      have h2 : (rest.any fun x => decide (x = q)) = true :=
        List.any_eq_true.mpr ⟨q, hq, decide_eq_true rfl⟩
      rw [ha] at h2
      exact Bool.false_ne_true h2

theorem length_dropDupKeepLastV (l : List (Row α)) :
    (dropDupKeepLastV l).length = l.toFinset.card := by
  have h1 : (dropDupKeepLastV l).toFinset = l.toFinset := by
    refine Finset.ext fun a => ?_
    simp [List.mem_toFinset, mem_dropDupKeepLastV_iff]
  rw [← List.toFinset_card_of_nodup (nodup_dropDupKeepLastV l), h1]

theorem scenario_clean_filter :
    (scenario.filter (fun r => !unclearRow scenario r)).filter allSome =
      ((List.range 1000).filter (fun j => !decide (j < 500))).map
        (fun i => [some i, some (i + 1)]) ++ copyRows := by
  rw [filter_scenario]
  rw [show baseRows.filter (fun r => !unclearRow scenario r) =
      ((List.range 1000).filter (fun j => !decide (j < 500))).map
        (fun i => [some i, some (i + 1)]) from by
    rw [baseRows]
    exact filter_map_range _ _ _ 1000 fun j hj => by rw [unclear_base j hj]]
  rw [show copyRows.filter (fun r => !unclearRow scenario r) = copyRows from
    List.filter_eq_self.mpr fun r hr => by
      rw [copyRows] at hr
      rcases List.mem_map.mp hr with ⟨i, hi, rfl⟩
      rw [unclear_copy i (List.mem_range.mp hi)]
      rfl]
  rw [show unclearValueRows.filter (fun r => !unclearRow scenario r) = [] from
    List.filter_eq_nil_iff.mpr fun r hr => by
      rw [unclearValueRows] at hr
      rcases List.mem_map.mp hr with ⟨i, hi, rfl⟩
      rw [unclear_unclear i (List.mem_range.mp hi)]
      simp]
  rw [show nanValueRows.filter (fun r => !unclearRow scenario r) = [] from
    List.filter_eq_nil_iff.mpr fun r hr => by
      rw [nanValueRows] at hr
      rcases List.mem_map.mp hr with ⟨i, hi, rfl⟩
      rw [unclear_nan i (List.mem_range.mp hi)]
      simp]
  rw [List.append_nil, List.append_nil, List.filter_append]
  rw [show (((List.range 1000).filter (fun j => !decide (j < 500))).map
      (fun i => [some i, some (i + 1)])).filter (fun r => allSome r) =
      ((List.range 1000).filter (fun j => !decide (j < 500))).map
        (fun i => [some i, some (i + 1)]) from
    List.filter_eq_self.mpr fun r hr => by
      rcases List.mem_map.mp hr with ⟨i, _, rfl⟩
      rfl]
  rw [show copyRows.filter (fun r => allSome r) = copyRows from
    List.filter_eq_self.mpr fun r hr => by
      rw [copyRows] at hr
      rcases List.mem_map.mp hr with ⟨i, _, rfl⟩
      rfl]

set_option maxRecDepth 40000 in
theorem scenario_cleaned_length : (cleanedRows scenario).length = 500 := by
  rw [cleanedRows_eq_value, scenario_clean_filter, length_dropDupKeepLastV,
    List.toFinset_append]
  have hsub : copyRows.toFinset ⊆ (((List.range 1000).filter (fun j => !decide (j < 500))).map
      (fun i => [some i, some (i + 1)])).toFinset := by
    intro r hr
    rw [List.mem_toFinset] at hr ⊢
    rw [copyRows] at hr
    rcases List.mem_map.mp hr with ⟨i, hi, rfl⟩
    have hi' := List.mem_range.mp hi
    refine List.mem_map.mpr ⟨900 + i, ?_, ?_⟩
    · refine List.mem_filter.mpr ⟨List.mem_range.mpr (by omega), ?_⟩
      have h5 : ¬ (900 + i < 500) := by omega
      simp [h5]
    · rw [show 900 + i + 1 = 901 + i from by omega]
  rw [Finset.union_eq_left.mpr hsub]
  rw [List.toFinset_card_of_nodup (by
    refine List.Nodup.map_on ?_ (List.Nodup.filter _ (List.nodup_range 1000))
    intro x _ y _ hxy
    have : x = y ∧ x + 1 = y + 1 := by
      simpa using hxy
    exact this.1)]
  rw [List.length_map]
  decide

/--
C4 (counterexample). On the spec's 1600-row scenario — 1000 unique rows,
plus 100 exact duplicates of the last 100, plus 200 same-time rows with
different values, plus 300 same-time rows with null values — classification
with `keep=False` does not report the claimed `total_dupes=600`,
`perfect=100`, `unclear=500`, nor a 700-row cleaned table.
-/
theorem scenario_counterexample :
    ¬ (totalDupes scenario = 600 ∧ perfectCount scenario = 100 ∧
       unclearCount scenario = 500 ∧ (cleanedRows scenario).length = 700) := by
  intro h
  have h1 := h.1
  rw [scenario_totalDupes] at h1
  omega

/--
C4 (amended). On the same scenario the code reports `total_rows=1600`,
`total_dupes=1200`, `perfect=200`, `unclear=1000`, `nan=300` — `duplicated`
with `keep=False` marks every occurrence, so both members of each colliding
pair count — and the cleaned table has 500 rows (the 400 never-duplicated
base rows plus one survivor per perfect-duplicate group; all 500 base rows
with colliding times, the 200 different-value rows and the 300 null-value
rows are unclear and dropped).
-/
theorem scenario_counts_amended :
    totalRows scenario = 1600 ∧ totalDupes scenario = 1200 ∧
    perfectCount scenario = 200 ∧ unclearCount scenario = 1000 ∧
    nanCount scenario = 300 ∧ (cleanedRows scenario).length = 500 :=
  ⟨scenario_totalRows, scenario_totalDupes, scenario_perfect, scenario_unclear,
    scenario_nan, scenario_cleaned_length⟩

end Timestone
